import Mathlib

/-!
Verification of the product-matching engine of the telegram channel monitor.

The engine lives in the matcher source file; its operations are pure
functions of a message string and configuration.  We embed them shallowly:

* Python strings are lists of characters (`Str`);
* Python float values produced by the price parser are exact decimals
  `PyNum` (a numerator together with a power-of-ten scale), since every
  value the parser builds is of the form `digits` or `digits.digits`;
* the regular-expression engine (`re.search`) is an explicit oracle
  parameter of type `RegexFn`: for each (pattern, text) pair it reports a
  compilation error, no match, or a match together with the full matched
  span (group 0) and the optional first capturing group.  All control-flow
  theorems hold for every oracle; concrete evaluations instantiate it with
  a literal-substring oracle that models `re.search` on metacharacter-free
  patterns;
* Python case folding (`str.lower` / `str.upper`) is modelled per
  character for ASCII Latin and the Cyrillic block letters the program
  works with (including і/І from the look-alike table); all other
  characters are left unchanged.
-/

abbrev Str := List Char

/-- Character list of a Lean string literal. -/
def chars (s : String) : Str := s.data

/-- Numeric value of a list of ASCII digits (most significant first). -/
def natVal (l : Str) : Nat := l.foldl (fun acc c => 10 * acc + (c.toNat - 48)) 0

/-- Model of Python str.lower, restricted to ASCII Latin letters and the
Cyrillic letters А..Я plus І; every other character is unchanged. -/
def pyLower (c : Char) : Char :=
  if 65 ≤ c.toNat ∧ c.toNat ≤ 90 then Char.ofNat (c.toNat + 32)
  else if 1040 ≤ c.toNat ∧ c.toNat ≤ 1071 then Char.ofNat (c.toNat + 32)
  else if c = 'І' then 'і'
  else c

/-- Model of Python str.upper, restricted to ASCII Latin letters and the
Cyrillic letters а..я plus і; every other character is unchanged. -/
def pyUpper (c : Char) : Char :=
  if 97 ≤ c.toNat ∧ c.toNat ≤ 122 then Char.ofNat (c.toNat - 32)
  else if 1072 ≤ c.toNat ∧ c.toNat ≤ 1103 then Char.ofNat (c.toNat - 32)
  else if c = 'і' then 'І'
  else c

def strLower (l : Str) : Str := l.map pyLower

def strUpper (l : Str) : Str := l.map pyUpper

/-- The look-alike table of the matcher source: Cyrillic characters that
are visually identical to Latin ones, keyed exactly as in the source. -/
def CYRILLIC_TO_LATIN : List (Char × Char) :=
  [('А', 'A'), ('В', 'B'), ('Е', 'E'), ('К', 'K'), ('М', 'M'),
   ('Н', 'H'), ('О', 'O'), ('Р', 'P'), ('С', 'C'), ('Т', 'T'),
   ('Х', 'X'), ('У', 'Y'), ('І', 'I'),
   ('а', 'a'), ('е', 'e'), ('о', 'o'), ('р', 'p'), ('с', 'c'),
   ('у', 'y'), ('х', 'x'), ('і', 'i')]

/-- Per-character normalization: CYRILLIC_TO_LATIN.get(char, char). -/
def normalize_char (c : Char) : Char :=
  match CYRILLIC_TO_LATIN.lookup c with
  | some v => v
  | none => c

/-- Embedding of the normalize-text method: replace every Cyrillic
look-alike character by its Latin counterpart, one character at a time. -/
def normalize_text (text : Str) : Str := text.map normalize_char

/-- Python substring containment (the `in` operator on strings). -/
def strContains (hay needle : Str) : Bool :=
  (List.range (hay.length + 1)).any (fun i =>
    decide ((hay.drop i).take needle.length = needle))

/-- Restricted model of the word characters of Python re (ASCII digits,
ASCII letters, underscore, and the Cyrillic block U+0400..U+04FF). -/
def isWordChar (c : Char) : Bool :=
  decide (48 ≤ c.toNat ∧ c.toNat ≤ 57) || decide (65 ≤ c.toNat ∧ c.toNat ≤ 90) ||
  decide (97 ≤ c.toNat ∧ c.toNat ≤ 122) || c == '_' ||
  decide (1024 ≤ c.toNat ∧ c.toNat ≤ 1279)

/-- Whether the character at position i (if any) is a word character. -/
def wordAtPos (l : Str) (i : Nat) : Bool :=
  match l.drop i with
  | c :: _ => isWordChar c
  | [] => false

/-- Word-boundary test of Python re at position i of a string: the
word-ness of the characters on the two sides of the position differs
(positions outside the string count as non-word). -/
def boundaryAt (l : Str) (i : Nat) : Bool :=
  (if i = 0 then false else wordAtPos l (i - 1)) != wordAtPos l i

/-- Semantics of re.search for a boundary-delimited literal keyword,
i.e. of the pattern backslash-b ++ re.escape(kw) ++ backslash-b: some
occurrence of kw has a word boundary on both sides. -/
def boundarySearch (kw text : Str) : Bool :=
  (List.range (text.length + 1)).any (fun i =>
    decide ((text.drop i).take kw.length = kw) && boundaryAt text i &&
      boundaryAt text (i + kw.length))

/-- Exact decimal number: num / 10 ^ scale.  This represents the float
values the price parser produces (always of the form digits or
digits.digits) without rounding. -/
structure PyNum where
  num : Nat
  scale : Nat
deriving DecidableEq

/-- Comparison of two exact decimals (models Python float comparison on
the decimal values the engine handles), by cross multiplication. -/
def PyNum.le (a b : PyNum) : Bool :=
  decide (a.num * 10 ^ b.scale ≤ b.num * 10 ^ a.scale)

/-- Whitespace model for Python str.strip on the price alphabet: blank
and no-break space (the only whitespace the numeric patterns admit). -/
def isPySpace (c : Char) : Bool := c == ' ' || c == '\u00A0'

/-- Python str.strip restricted to the modelled whitespace. -/
def pyStrip (l : Str) : Str :=
  ((l.dropWhile isPySpace).reverse.dropWhile isPySpace).reverse

/-- Index of the last character satisfying p, if any (Python str.rfind
returns this index, or -1 when absent; absence is the none case). -/
def rfindP (p : Char → Bool) : Str → Option Nat
  | [] => none
  | c :: rest =>
    match rfindP p rest with
    | some i => some (i + 1)
    | none => if p c then some 0 else none

/-- Comparison a > b of two Python rfind results, where a missing
separator has index -1: any found index beats absent, absent beats
nothing. -/
def gtOpt : Option Nat → Option Nat → Bool
  | some i, some j => decide (j < i)
  | some _, none => true
  | none, _ => false

/-- Removal of every separator the parser strips: comma, dot, blank and
no-break space (the chained str.replace calls of the source). -/
def strip_seps (l : Str) : Str :=
  l.filter (fun c => !(c == ',' || c == '.' || c == ' ' || c == '\u00A0'))

/-- Split at the first dot: the part before and the part after. -/
def dotSplit : Str → Option (Str × Str)
  | [] => none
  | c :: rest =>
    if c = '.' then some ([], rest)
    else (dotSplit rest).map (fun p => (c :: p.1, p.2))

/-- Restricted model of the Python float() constructor on the strings the
price parser builds: a nonempty run of ASCII digits, or two digit runs
joined by a single dot (at least one digit in total).  Forms the parser
never produces from its digit-and-separator alphabet (signs, exponents,
underscores, inf/nan, non-ASCII digits) are not modelled and map to
failure. -/
def pyFloat (l : Str) : Option PyNum :=
  if l ≠ [] ∧ l.all Char.isDigit then some ⟨natVal l, 0⟩
  else
    match dotSplit l with
    | some (a, b) =>
      if (a ≠ [] ∨ b ≠ []) ∧ a.all Char.isDigit ∧ b.all Char.isDigit ∧ decide ('.' ∉ b) then
        some ⟨natVal (a ++ b), b.length⟩
      else none
    | none => none

/-- Embedding of the price-string parser: strip the string, find the last
dot and the last comma, make whichever comes later the decimal separator
when exactly 1-2 digit characters follow it, split there (only when the
separator is not the first character), strip grouping separators, and
convert with float(). -/
def parse_price_string (price_str : Str) : Option PyNum :=
  let cleaned := pyStrip price_str
  let last_dot_pos := rfindP (fun c => c == '.') cleaned
  let last_comma_pos := rfindP (fun c => c == ',') cleaned
  let dec_pos : Option Nat :=
    if gtOpt last_dot_pos last_comma_pos then
      match last_dot_pos with
      | some i =>
        let after_dot := cleaned.drop (i + 1)
        if 1 ≤ after_dot.length ∧ after_dot.length ≤ 2 ∧ after_dot.all Char.isDigit then
          some i
        else none
      | none => none
    else if gtOpt last_comma_pos last_dot_pos then
      match last_comma_pos with
      | some i =>
        let after_comma := cleaned.drop (i + 1)
        if 1 ≤ after_comma.length ∧ after_comma.length ≤ 2 ∧ after_comma.all Char.isDigit then
          some i
        else none
      | none => none
    else none
  match dec_pos with
  | some i =>
    if 0 < i then
      pyFloat (strip_seps (cleaned.take i) ++ '.' :: cleaned.drop (i + 1))
    else pyFloat (strip_seps cleaned)
  | none => pyFloat (strip_seps cleaned)

/-- Embedding of the currency detector: euro tokens first (euro sign, EUR
in the upper-cased span, the native word in the lower-cased span), then
dollar tokens, else the empty string. -/
def detect_currency (matched_text : Str) : Str :=
  if strContains matched_text (chars "€") ||
     strContains (strUpper matched_text) (chars "EUR") ||
     strContains (strLower matched_text) (chars "евро") then chars "€"
  else if strContains matched_text (chars "$") ||
     strContains (strUpper matched_text) (chars "USD") ||
     strContains (strLower matched_text) (chars "dollar") ||
     strContains (strLower matched_text) (chars "доллар") then chars "$"
  else []

/-- Outcome of one re.search call as the engine observes it: a raised
error (malformed pattern, or a missing capturing group on access), no
match, or a match carrying group 0 (the full span) and the optional first
capturing group (none when the group exists but matched nothing). -/
inductive ReOutcome where
  | err : ReOutcome
  | noMatch : ReOutcome
  | matched : Str → Option Str → ReOutcome
deriving DecidableEq

/-- The abstract regular-expression engine: pattern and text to outcome. -/
abbrev RegexFn := Str → Str → ReOutcome

/-- Oracle modelling re.search for literal, metacharacter-free patterns:
a match is exactly a substring occurrence (group 1 absent). -/
def substrOracle : RegexFn := fun pat text =>
  if strContains text pat then ReOutcome.matched pat none else ReOutcome.noMatch

/-- The matching settings captured at construction. -/
structure MatchingConfig where
  case_sensitive : Bool
  whole_word : Bool
  regex_enabled : Bool
deriving DecidableEq

/-- One configured price pattern: optional template (the placeholder is
substituted before evaluation) and optional minimum value. -/
structure PricePattern where
  pattern : Option Str
  min_value : Option PyNum
deriving DecidableEq

/-- Optional inclusive price range of a product. -/
structure PriceRange where
  min : Option PyNum
  max : Option PyNum
deriving DecidableEq

/-- One configured product. -/
structure Product where
  name : Option Str
  keywords : List Str
  exclude_keywords : Option (List Str)
  price_range : Option PriceRange
  notify : Option Bool
deriving DecidableEq

/-- The price extractor result: value and currency. -/
structure PriceInfo where
  value : PyNum
  currency : Str
deriving DecidableEq

/-- One match result as the orchestrator assembles it. -/
structure MatchResult where
  product_name : Str
  matched_keywords : List Str
  price : Option PyNum
  currency : Option Str
  notify : Bool
deriving DecidableEq

/-- The matcher object: products, matching settings, price patterns and
the (already defaulted) numeric sub-pattern. -/
structure ProductMatcher where
  products : List Product
  matching : MatchingConfig
  price_patterns : List PricePattern
  price_number_regex : Str

/-- The default numeric sub-pattern of the source. -/
def DEFAULT_PRICE_NUMBER_REGEX : Str :=
  chars "(\\d{1,4}(?:[,\\s]\\d{3})*(?:[.,]\\d{1,2})?)"

/-- Constructor-time defaulting of the numeric sub-pattern: a missing or
falsy (empty) configured regex is replaced by the default. -/
def init_price_number_regex (configured : Option Str) : Str :=
  match configured with
  | none => DEFAULT_PRICE_NUMBER_REGEX
  | some r => if r.isEmpty then DEFAULT_PRICE_NUMBER_REGEX else r

/-- Python str.replace: replace every occurrence of old by new, scanning
left to right without overlap. -/
def replace_sub (old new : Str) : Str → Str
  | [] => []
  | c :: rest =>
    if old ≠ [] ∧ (c :: rest).take old.length = old then
      new ++ replace_sub old new (rest.drop (old.length - 1))
    else
      c :: replace_sub old new rest
termination_by l => l.length
decreasing_by
  · simp only [List.length_cons, List.length_drop]
    omega
  · simp only [List.length_cons]
    omega

/-- Substitution of the price placeholder token into a pattern template. -/
def subst_price (tmpl num_regex : Str) : Str :=
  replace_sub (chars "{price}") num_regex tmpl

/-- The pattern loop body of the price extractor: each configured pattern
is tried in order; a falsy template, a search error (malformed pattern or
missing group), no match, an absent group, an unparsable number, or a
value below the pattern minimum all continue with the next pattern; the
first qualifying value is returned with its currency. -/
def extract_price_loop (num_regex : Str) (re_search : RegexFn) (text : Str) :
    List PricePattern → Option PriceInfo
  | [] => none
  | pc :: rest =>
    match pc.pattern with
    | none => extract_price_loop num_regex re_search text rest
    | some tmpl =>
      if tmpl.isEmpty then extract_price_loop num_regex re_search text rest
      else
        match re_search (subst_price tmpl num_regex) text with
        | ReOutcome.err => extract_price_loop num_regex re_search text rest
        | ReOutcome.noMatch => extract_price_loop num_regex re_search text rest
        | ReOutcome.matched g0 g1 =>
          match g1 with
          | none => extract_price_loop num_regex re_search text rest
          | some price_str =>
            match parse_price_string price_str with
            | none => extract_price_loop num_regex re_search text rest
            | some price =>
              if PyNum.le (pc.min_value.getD ⟨0, 0⟩) price then
                some ⟨price, detect_currency g0⟩
              else extract_price_loop num_regex re_search text rest

/-- Embedding of the price extractor: no patterns configured yields no
price, otherwise the pattern loop decides. -/
def extract_price (patterns : List PricePattern) (num_regex : Str)
    (re_search : RegexFn) (text : Str) : Option PriceInfo :=
  if patterns.isEmpty then none
  else extract_price_loop num_regex re_search text patterns

/-- Normalization followed by the configured case folding, as the
orchestrator and the keyword matcher both apply it. -/
def fold_text (cfg : MatchingConfig) (t : Str) : Str :=
  let n := normalize_text t
  if cfg.case_sensitive then n else strLower n

/-- Embedding of the keyword matcher.  The keyword is normalized and case
folded; with pattern matching enabled the oracle evaluates it (wrapped in
word-boundary assertions when whole-word is set), a match giving true, no
match false, and an error falling back to literal matching.  The literal
whole-word fallback models re.search of the boundary-wrapped escaped
keyword by boundary-delimited literal search. -/
def match_keyword (cfg : MatchingConfig) (re_search : RegexFn)
    (text keyword : Str) : Bool :=
  let kn := fold_text cfg keyword
  let literal : Bool :=
    if cfg.whole_word then boundarySearch kn text else strContains text kn
  if cfg.regex_enabled then
    match re_search (if cfg.whole_word then chars "\\b" ++ kn ++ chars "\\b" else kn) text with
    | ReOutcome.err => literal
    | ReOutcome.noMatch => false
    | ReOutcome.matched _ _ => true
  else literal

/-- Embedding of the per-product matcher: fold the message once, collect
the matching inclusion keywords, stop on any exclusion keyword, and when
a price range is configured run the extractor on the original message
text; an extracted price outside the (defaulted, inclusive) bounds skips
the product, while an absent price leaves the price fields empty. -/
def match_product (m : ProductMatcher) (re_search : RegexFn)
    (message_text : Str) (product : Product) : Option MatchResult :=
  let text := fold_text m.matching message_text
  let matched_keywords :=
    product.keywords.filter (fun k => match_keyword m.matching re_search text k)
  if matched_keywords.isEmpty then none
  else if (product.exclude_keywords.getD []).any
      (fun k => match_keyword m.matching re_search text k) then none
  else
    match product.price_range with
    | none =>
      some ⟨product.name.getD (chars "Unknown"), matched_keywords, none, none,
        product.notify.getD true⟩
    | some pr =>
      match extract_price m.price_patterns m.price_number_regex re_search message_text with
      | none =>
        some ⟨product.name.getD (chars "Unknown"), matched_keywords, none, none,
          product.notify.getD true⟩
      | some pi =>
        if PyNum.le (pr.min.getD ⟨0, 0⟩) pi.value &&
           (match pr.max with
            | some mx => PyNum.le pi.value mx
            | none => true) then
          some ⟨product.name.getD (chars "Unknown"), matched_keywords, some pi.value,
            some pi.currency, product.notify.getD true⟩
        else none

/-- Embedding of the message matcher: an empty message matches nothing;
otherwise every product is tried in catalog order. -/
def match_message (m : ProductMatcher) (re_search : RegexFn)
    (message_text : Str) : List MatchResult :=
  if message_text.isEmpty then []
  else m.products.filterMap (match_product m re_search message_text)

/-- Component-level keyword matching as the spec states it: the message
side is normalized and case folded exactly as the orchestrator does
before the keyword matcher runs. -/
def keyword_matches (cfg : MatchingConfig) (re_search : RegexFn) (t k : Str) : Bool :=
  match_keyword cfg re_search (fold_text cfg t) k

/-- Literal matching as the spec words it: boundary-delimited literal
search when whole-word is set, plain substring containment otherwise. -/
def literal_match (whole_word : Bool) (kw text : Str) : Bool :=
  if whole_word then boundarySearch kw text else strContains text kw

/-- The rightmost-separator rule exactly as the claim states it, on a
trimmed numeric substring: the later of the last dot and last comma is
the decimal separator iff exactly 1 or 2 digit characters follow it to
the end; with a decimal separator the value is the stripped integer part
extended by the fractional digits; otherwise every separator and
whitespace is stripped and the digit run is the integer value. -/
def rightmost_sep_rule (t : Str) : PyNum :=
  match rfindP (fun c => c == '.' || c == ',') t with
  | some i =>
    let suffix := t.drop (i + 1)
    if 1 ≤ suffix.length ∧ suffix.length ≤ 2 ∧ suffix.all Char.isDigit then
      ⟨natVal ((t.take i).filter Char.isDigit ++ suffix), suffix.length⟩
    else ⟨natVal (t.filter Char.isDigit), 0⟩
  | none => ⟨natVal (t.filter Char.isDigit), 0⟩

/-- The digit-and-separator alphabet a raw numeric substring consists
of: ASCII digits, comma, dot, blank, no-break space. -/
def numericChar (c : Char) : Bool :=
  c.isDigit || c == ',' || c == '.' || c == ' ' || c == ' '

/-- Case-insensitive token containment, the claim-side reading of
currency detection. -/
def ci_contains (tok s : Str) : Bool :=
  strContains (strLower s) (strLower tok)

/-- The ordered currency token groups of the claim: the euro group
before the dollar group, each with its symbol. -/
def currency_groups : List (List Str × Str) :=
  [([chars "€", chars "EUR", chars "евро"], chars "€"),
   ([chars "$", chars "USD", chars "dollar", chars "доллар"], chars "$")]

/-- Currency detection as the claim states it: the symbol of the first
group with a token present (case-insensitively) in the span, else the
empty string. -/
def currency_spec (s : Str) : Str :=
  match currency_groups.find? (fun g => g.1.any (fun t => ci_contains t s)) with
  | some g => g.2
  | none => []

/-- Outcome of one pattern of the price extractor, used to state the
first-qualifying-pattern-wins property: some value and currency exactly
when the pattern template is present and non-falsy, the search matches,
the first group parses, and the value reaches the pattern minimum. -/
def eval_pattern (num_regex : Str) (re_search : RegexFn) (text : Str)
    (pc : PricePattern) : Option PriceInfo :=
  match pc.pattern with
  | none => none
  | some tmpl =>
    if tmpl.isEmpty then none
    else
      match re_search (subst_price tmpl num_regex) text with
      | ReOutcome.err => none
      | ReOutcome.noMatch => none
      | ReOutcome.matched g0 g1 =>
        match g1 with
        | none => none
        | some price_str =>
          match parse_price_string price_str with
          | none => none
          | some price =>
            if PyNum.le (pc.min_value.getD ⟨0, 0⟩) price then
              some ⟨price, detect_currency g0⟩
            else none

/-- Characters on which normalization commutes with the modelled case
folding in both directions; keyword-matching case invariance holds for
texts and keywords made of such characters. -/
def case_fold_ok (c : Char) : Bool :=
  pyLower (normalize_char (pyUpper c)) == pyLower (normalize_char c) &&
  pyLower (normalize_char (pyLower c)) == pyLower (normalize_char c)

/-- An always-failing regex oracle (every pattern malformed). -/
def errOracle : RegexFn := fun _ _ => ReOutcome.err

theorem lookup_mem {l : List (Char × Char)} {a b : Char}
    (h : l.lookup a = some b) : (a, b) ∈ l := by
  induction l with
  | nil => simp [List.lookup] at h
  | cons hd tl ih =>
    rw [List.lookup] at h
    cases hc : (a == hd.1) with
    | true =>
      rw [hc] at h
      have ha : a = hd.1 := beq_iff_eq.mp hc
      cases h
      cases hd
      simp_all
    | false =>
      rw [hc] at h
      exact List.mem_cons_of_mem _ (ih h)

theorem normalize_char_idem (c : Char) :
    normalize_char (normalize_char c) = normalize_char c := by
  rcases h : CYRILLIC_TO_LATIN.lookup c with _ | v
  · have hc : normalize_char c = c := by rw [normalize_char, h]
    rw [hc, hc]
  · have hc : normalize_char c = v := by rw [normalize_char, h]
    have hmem : (c, v) ∈ CYRILLIC_TO_LATIN := lookup_mem h
    have hall : ∀ p ∈ CYRILLIC_TO_LATIN, CYRILLIC_TO_LATIN.lookup p.2 = none := by decide
    have hv : CYRILLIC_TO_LATIN.lookup v = none := hall (c, v) hmem
    rw [hc]
    simp [normalize_char, hv]

/-- Claim C8: text normalization is idempotent; no character produced by
the look-alike substitution table is itself a key of that table. -/
theorem normalization_idempotent (x : Str) :
    normalize_text (normalize_text x) = normalize_text x := by
  simp only [normalize_text, List.map_map]
  exact List.map_congr_left (fun c _ => normalize_char_idem c)

/-- Claim C10: the empty message produces the empty result list for
every catalog, settings and regex oracle, without evaluating any
product. -/
theorem empty_message_matches_nothing (m : ProductMatcher) (re_search : RegexFn) :
    match_message m re_search [] = [] := rfl

/-- Claim C5: whenever some exclusion keyword of a product matches the
folded message text, the product yields no match result, regardless of
which inclusion keywords also match. -/
theorem exclusion_overrides_inclusion (m : ProductMatcher) (re_search : RegexFn)
    (text : Str) (product : Product)
    (h : ∃ ek ∈ product.exclude_keywords.getD [],
      match_keyword m.matching re_search (fold_text m.matching text) ek = true) :
    match_product m re_search text product = none := by
  have h2 : (product.exclude_keywords.getD []).any
      (fun k => match_keyword m.matching re_search (fold_text m.matching text) k) = true := by
    rw [List.any_eq_true]
    obtain ⟨ek, hm, he⟩ := h
    exact ⟨ek, hm, he⟩
  by_cases h1 : (product.keywords.filter
      (fun k => match_keyword m.matching re_search (fold_text m.matching text) k)).isEmpty
  · simp [match_product, h1]
  · simp [match_product, h1, h2]

/-- Claim C7: with pattern matching enabled, a keyword whose compiled
pattern fails never raises: the keyword matcher returns exactly the
literal-matching result (boundary-delimited literal search under
whole-word, plain substring containment otherwise). -/
theorem malformed_pattern_falls_back (cfg : MatchingConfig) (re_search : RegexFn)
    (text k : Str)
    (hre : cfg.regex_enabled = true)
    (herr : re_search
      (if cfg.whole_word then chars "\\b" ++ fold_text cfg k ++ chars "\\b"
       else fold_text cfg k) text = ReOutcome.err) :
    match_keyword cfg re_search text k =
      literal_match cfg.whole_word (fold_text cfg k) text := by
  simp only [match_keyword, literal_match, hre, if_true]
  rw [herr]

/-- Default matching settings of the source: case-insensitive, no whole
word, pattern matching enabled. -/
def cfg0 : MatchingConfig := ⟨false, false, true⟩

/-- A matcher with no products and no price patterns, default settings. -/
def m0 : ProductMatcher := ⟨[], cfg0, [], DEFAULT_PRICE_NUMBER_REGEX⟩

/-- A product with one inclusion keyword and one exclusion keyword. -/
def prodExcl : Product :=
  ⟨some (chars "Widget"), [chars "phone"], some [chars "scam"], none, none⟩

theorem exclusion_overrides_inclusion_witness :
    (∃ ek ∈ prodExcl.exclude_keywords.getD [],
      match_keyword m0.matching substrOracle
        (fold_text m0.matching (chars "phone scam")) ek = true) ∧
    match_product m0 substrOracle (chars "phone scam") prodExcl = none :=
  ⟨by decide,
   exclusion_overrides_inclusion m0 substrOracle (chars "phone scam") prodExcl (by decide)⟩

theorem malformed_pattern_falls_back_witness :
    cfg0.regex_enabled = true ∧
    errOracle
      (if cfg0.whole_word then chars "\\b" ++ fold_text cfg0 (chars "[") ++ chars "\\b"
       else fold_text cfg0 (chars "[")) (chars "a[b") = ReOutcome.err ∧
    match_keyword cfg0 errOracle (chars "a[b") (chars "[") =
      literal_match cfg0.whole_word (fold_text cfg0 (chars "[")) (chars "a[b") :=
  ⟨rfl, rfl, malformed_pattern_falls_back cfg0 errOracle (chars "a[b") (chars "[") rfl rfl⟩

/-- Claim C6: with a price range configured and a price extracted, the
product qualifies exactly when the price lies within the inclusive,
defaulted bounds: the minimum defaults to 0, a missing maximum is
unbounded, and equality with either bound qualifies. -/
theorem price_range_inclusive (m : ProductMatcher) (re_search : RegexFn)
    (text : Str) (product : Product) (pr : PriceRange) (pi : PriceInfo)
    (hpr : product.price_range = some pr)
    (h1 : (product.keywords.filter
      (fun k => match_keyword m.matching re_search (fold_text m.matching text) k)).isEmpty = false)
    (h2 : (product.exclude_keywords.getD []).any
      (fun k => match_keyword m.matching re_search (fold_text m.matching text) k) = false)
    (hext : extract_price m.price_patterns m.price_number_regex re_search text = some pi) :
    (match_product m re_search text product).isSome = true ↔
      (PyNum.le (pr.min.getD ⟨0, 0⟩) pi.value &&
        (match pr.max with
         | some mx => PyNum.le pi.value mx
         | none => true)) = true := by
  simp only [match_product, h1, h2, hpr, hext, Bool.false_eq_true, if_false]
  cases hb : (PyNum.le (pr.min.getD ⟨0, 0⟩) pi.value &&
      (match pr.max with
       | some mx => PyNum.le pi.value mx
       | none => true)) with
  | true => simp [hb]
  | false => simp [hb]

/-- An oracle for a pattern that matches the span 250 dollars with the
number as its first capturing group. -/
def priceOracle : RegexFn := fun _ _ =>
  ReOutcome.matched (chars "$250") (some (chars "250"))

/-- A one-pattern price configuration with no minimum value. -/
def patSimple : PricePattern := ⟨some (chars "for {price}"), none⟩

/-- A matcher holding the one-pattern price configuration. -/
def m1 : ProductMatcher := ⟨[], cfg0, [patSimple], DEFAULT_PRICE_NUMBER_REGEX⟩

/-- A product with keyword phone and price range 100 to 500. -/
def prodPrice : Product :=
  ⟨some (chars "Phone"), [chars "phone"], none,
   some ⟨some ⟨100, 0⟩, some ⟨500, 0⟩⟩, none⟩

theorem price_range_inclusive_witness :
    prodPrice.price_range = some ⟨some ⟨100, 0⟩, some ⟨500, 0⟩⟩ ∧
    (prodPrice.keywords.filter
      (fun k => match_keyword m1.matching priceOracle
        (fold_text m1.matching (chars "phone for $250")) k)).isEmpty = false ∧
    (prodPrice.exclude_keywords.getD []).any
      (fun k => match_keyword m1.matching priceOracle
        (fold_text m1.matching (chars "phone for $250")) k) = false ∧
    extract_price m1.price_patterns m1.price_number_regex priceOracle
      (chars "phone for $250") = some ⟨⟨250, 0⟩, chars "$"⟩ ∧
    ((match_product m1 priceOracle (chars "phone for $250") prodPrice).isSome = true ↔
      (PyNum.le ((⟨some ⟨100, 0⟩, some ⟨500, 0⟩⟩ : PriceRange).min.getD ⟨0, 0⟩)
          (⟨⟨250, 0⟩, chars "$"⟩ : PriceInfo).value &&
        (match (⟨some ⟨100, 0⟩, some ⟨500, 0⟩⟩ : PriceRange).max with
         | some mx => PyNum.le (⟨⟨250, 0⟩, chars "$"⟩ : PriceInfo).value mx
         | none => true)) = true) :=
  ⟨rfl, by decide, by decide, by decide,
   price_range_inclusive m1 priceOracle (chars "phone for $250") prodPrice
     ⟨some ⟨100, 0⟩, some ⟨500, 0⟩⟩ ⟨⟨250, 0⟩, chars "$"⟩
     rfl (by decide) (by decide) (by decide)⟩

/-- A matcher whose catalog holds the price-ranged product but that has
no price patterns configured, so the extractor never finds a price. -/
def mNoPatterns : ProductMatcher := ⟨[prodPrice], cfg0, [], DEFAULT_PRICE_NUMBER_REGEX⟩

/-- Claim C1 counterexample: the product declares a price range, the
extractor finds no price in the message, and yet the message matcher
produces a match result for the product (with empty price fields); the
claimed skipping does not happen. -/
theorem no_price_skips_product_cex :
    extract_price mNoPatterns.price_patterns mNoPatterns.price_number_regex
      substrOracle (chars "phone") = none ∧
    match_message mNoPatterns substrOracle (chars "phone") =
      [⟨chars "Phone", [chars "phone"], none, none, true⟩] := by
  constructor
  · rfl
  · decide

/-- Claim C1 amended: when a product declares a price range but the
extractor finds no price in the original message text, the product is
not skipped: it matches with empty price and currency fields (the range
check runs only when a price was extracted). -/
theorem no_price_still_matches (m : ProductMatcher) (re_search : RegexFn)
    (text : Str) (product : Product) (pr : PriceRange)
    (hpr : product.price_range = some pr)
    (h1 : (product.keywords.filter
      (fun k => match_keyword m.matching re_search (fold_text m.matching text) k)).isEmpty = false)
    (h2 : (product.exclude_keywords.getD []).any
      (fun k => match_keyword m.matching re_search (fold_text m.matching text) k) = false)
    (hext : extract_price m.price_patterns m.price_number_regex re_search text = none) :
    match_product m re_search text product =
      some ⟨product.name.getD (chars "Unknown"),
        product.keywords.filter
          (fun k => match_keyword m.matching re_search (fold_text m.matching text) k),
        none, none, product.notify.getD true⟩ := by
  simp only [match_product, h1, h2, hpr, hext, Bool.false_eq_true, if_false]

theorem no_price_still_matches_witness :
    prodPrice.price_range = some ⟨some ⟨100, 0⟩, some ⟨500, 0⟩⟩ ∧
    (prodPrice.keywords.filter
      (fun k => match_keyword mNoPatterns.matching substrOracle
        (fold_text mNoPatterns.matching (chars "phone")) k)).isEmpty = false ∧
    (prodPrice.exclude_keywords.getD []).any
      (fun k => match_keyword mNoPatterns.matching substrOracle
        (fold_text mNoPatterns.matching (chars "phone")) k) = false ∧
    extract_price mNoPatterns.price_patterns mNoPatterns.price_number_regex
      substrOracle (chars "phone") = none ∧
    match_product mNoPatterns substrOracle (chars "phone") prodPrice =
      some ⟨prodPrice.name.getD (chars "Unknown"),
        prodPrice.keywords.filter
          (fun k => match_keyword mNoPatterns.matching substrOracle
            (fold_text mNoPatterns.matching (chars "phone")) k),
        none, none, prodPrice.notify.getD true⟩ :=
  ⟨rfl, by decide, by decide, rfl,
   no_price_still_matches mNoPatterns substrOracle (chars "phone") prodPrice
     ⟨some ⟨100, 0⟩, some ⟨500, 0⟩⟩ rfl (by decide) (by decide) rfl⟩

/-- Claim C4 counterexample: with case-insensitive settings, the Cyrillic
capital letter Ve in the message and the Latin keyword B match (the
look-alike table maps the capital, and folding lowers both sides to the
same letter), but after uniformly lower-casing both sides they do not:
the lower-case Cyrillic letter is not in the look-alike table.  Matching
is therefore not invariant under uniform lower-casing of both sides. -/
theorem case_invariance_cex :
    cfg0.case_sensitive = false ∧
    keyword_matches cfg0 substrOracle (chars "В") (chars "B") = true ∧
    keyword_matches cfg0 substrOracle (strLower (chars "В")) (strLower (chars "B")) = false := by
  refine ⟨rfl, ?_, ?_⟩ <;> decide

theorem fold_text_strUpper (cfg : MatchingConfig) (hcs : cfg.case_sensitive = false)
    (t : Str) (ht : ∀ c ∈ t, case_fold_ok c = true) :
    fold_text cfg (strUpper t) = fold_text cfg t := by
  simp only [fold_text, hcs, Bool.false_eq_true, if_false, normalize_text, strLower, strUpper,
    List.map_map]
  refine List.map_congr_left (fun c hc => ?_)
  have h := ht c hc
  simp only [case_fold_ok, Bool.and_eq_true, beq_iff_eq] at h
  exact h.1

theorem fold_text_strLower (cfg : MatchingConfig) (hcs : cfg.case_sensitive = false)
    (t : Str) (ht : ∀ c ∈ t, case_fold_ok c = true) :
    fold_text cfg (strLower t) = fold_text cfg t := by
  simp only [fold_text, hcs, Bool.false_eq_true, if_false, normalize_text, strLower,
    List.map_map]
  refine List.map_congr_left (fun c hc => ?_)
  have h := ht c hc
  simp only [case_fold_ok, Bool.and_eq_true, beq_iff_eq] at h
  exact h.2

theorem match_keyword_congr (cfg : MatchingConfig) (re_search : RegexFn) (text : Str)
    (k₁ k₂ : Str) (hfold : fold_text cfg k₁ = fold_text cfg k₂) :
    match_keyword cfg re_search text k₁ = match_keyword cfg re_search text k₂ := by
  simp only [match_keyword, hfold]

/-- Claim C4 amended: with case-insensitive settings, keyword matching is
invariant under uniformly upper-casing or lower-casing both the message
text and the keyword, provided every character of both is one on which
normalization commutes with case folding (all Latin letters and the
Cyrillic letters both of whose cases the look-alike table covers; the
counterexample characters are exactly the ones the table covers in one
case only). -/
theorem case_insensitive_invariance (cfg : MatchingConfig) (re_search : RegexFn)
    (t k : Str) (hcs : cfg.case_sensitive = false)
    (ht : ∀ c ∈ t, case_fold_ok c = true) (hk : ∀ c ∈ k, case_fold_ok c = true) :
    keyword_matches cfg re_search (strUpper t) (strUpper k) =
      keyword_matches cfg re_search t k ∧
    keyword_matches cfg re_search (strLower t) (strLower k) =
      keyword_matches cfg re_search t k := by
  constructor
  · rw [keyword_matches, keyword_matches, fold_text_strUpper cfg hcs t ht,
      match_keyword_congr cfg re_search _ _ _ (fold_text_strUpper cfg hcs k hk)]
  · rw [keyword_matches, keyword_matches, fold_text_strLower cfg hcs t ht,
      match_keyword_congr cfg re_search _ _ _ (fold_text_strLower cfg hcs k hk)]

theorem case_insensitive_invariance_witness :
    cfg0.case_sensitive = false ∧
    (∀ c ∈ chars "iPhone 15", case_fold_ok c = true) ∧
    (∀ c ∈ chars "phone", case_fold_ok c = true) ∧
    (keyword_matches cfg0 substrOracle (strUpper (chars "iPhone 15")) (strUpper (chars "phone")) =
      keyword_matches cfg0 substrOracle (chars "iPhone 15") (chars "phone") ∧
     keyword_matches cfg0 substrOracle (strLower (chars "iPhone 15")) (strLower (chars "phone")) =
      keyword_matches cfg0 substrOracle (chars "iPhone 15") (chars "phone")) :=
  ⟨rfl, by decide, by decide,
   case_insensitive_invariance cfg0 substrOracle (chars "iPhone 15") (chars "phone")
     rfl (by decide) (by decide)⟩

theorem extract_price_loop_eq_findSome (num_regex : Str) (re_search : RegexFn)
    (text : Str) (patterns : List PricePattern) :
    extract_price_loop num_regex re_search text patterns =
      patterns.findSome? (eval_pattern num_regex re_search text) := by
  induction patterns with
  | nil => rfl
  | cons pc rest ih =>
    rw [List.findSome?_cons, extract_price_loop, eval_pattern]
    cases hp : pc.pattern with
    | none => exact ih
    | some tmpl =>
      cases he : tmpl.isEmpty with
      | true => simp only [he, if_true]; exact ih
      | false =>
        simp only [he, Bool.false_eq_true, if_false]
        cases hs : re_search (subst_price tmpl num_regex) text
        · exact ih
        · exact ih
        · next g0 g1 =>
            dsimp only
            cases g1 with
            | none => exact ih
            | some price_str =>
              dsimp only
              cases hpp : parse_price_string price_str with
              | none => exact ih
              | some price =>
                dsimp only
                cases hm : PyNum.le (pc.min_value.getD ⟨0, 0⟩) price with
                | true => simp only [hm, if_true]
                | false => simp only [hm, Bool.false_eq_true, if_false]; exact ih

/-- Claim C3: the price extractor returns the value and currency of the
first pattern in configuration order whose match parses to a value at or
above that pattern's minimum (it equals the first qualifying outcome of
the per-pattern evaluation in configuration order); once the head
pattern qualifies the remaining patterns never influence the result; and
a pattern whose parsed value is below its minimum merely hands over to
the remaining patterns. -/
theorem extract_first_pattern_wins (num_regex : Str) (re_search : RegexFn) (text : Str) :
    (∀ patterns : List PricePattern,
      extract_price patterns num_regex re_search text =
        patterns.findSome? (eval_pattern num_regex re_search text)) ∧
    (∀ (pc : PricePattern) (rest : List PricePattern) (r : PriceInfo),
      eval_pattern num_regex re_search text pc = some r →
      extract_price (pc :: rest) num_regex re_search text = some r) ∧
    (∀ (pc : PricePattern) (rest : List PricePattern) (tmpl g0 price_str : Str)
      (price : PyNum),
      pc.pattern = some tmpl → tmpl.isEmpty = false →
      re_search (subst_price tmpl num_regex) text = ReOutcome.matched g0 (some price_str) →
      parse_price_string price_str = some price →
      PyNum.le (pc.min_value.getD ⟨0, 0⟩) price = false →
      extract_price (pc :: rest) num_regex re_search text =
        extract_price rest num_regex re_search text) := by
  have hA : ∀ patterns : List PricePattern,
      extract_price patterns num_regex re_search text =
        patterns.findSome? (eval_pattern num_regex re_search text) := by
    intro patterns
    cases patterns with
    | nil => rfl
    | cons a l =>
      simp only [extract_price, List.isEmpty_cons, Bool.false_eq_true, if_false]
      exact extract_price_loop_eq_findSome num_regex re_search text (a :: l)
  refine ⟨hA, ?_, ?_⟩
  · intro pc rest r hr
    rw [hA (pc :: rest)]
    simp [List.findSome?_cons, hr]
  · intro pc rest tmpl g0 price_str price hp he hs hpp hm
    rw [hA (pc :: rest), hA rest]
    simp [List.findSome?_cons, eval_pattern, hp, he, hs, hpp, hm]

theorem extract_first_pattern_wins_witness :
    eval_pattern DEFAULT_PRICE_NUMBER_REGEX priceOracle (chars "phone for $250") patSimple =
      some ⟨⟨250, 0⟩, chars "$"⟩ ∧
    extract_price [patSimple, ⟨some (chars "price {price}"), some ⟨1000, 0⟩⟩]
      DEFAULT_PRICE_NUMBER_REGEX priceOracle (chars "phone for $250") =
      some ⟨⟨250, 0⟩, chars "$"⟩ :=
  ⟨by decide,
   (extract_first_pattern_wins DEFAULT_PRICE_NUMBER_REGEX priceOracle
      (chars "phone for $250")).2.1 patSimple [⟨some (chars "price {price}"), some ⟨1000, 0⟩⟩]
      ⟨⟨250, 0⟩, chars "$"⟩ (by decide)⟩

theorem toNat_ofNat_valid (n : Nat) (h : n < 55296) : (Char.ofNat n).toNat = n := by
  have hv : n.isValidChar := Or.inl h
  simp only [Char.ofNat, hv, dif_pos, Char.ofNatAux, Char.toNat, UInt32.toNat]
  rfl

theorem charEq_iff_toNat (a b : Char) : a = b ↔ a.toNat = b.toNat := by
  constructor
  · intro h; rw [h]
  · intro h
    apply Char.ext
    apply UInt32.ext
    simpa [Char.toNat] using h

theorem pyLower_toNat (c : Char) :
    (pyLower c).toNat =
      if 65 ≤ c.toNat ∧ c.toNat ≤ 90 then c.toNat + 32
      else if 1040 ≤ c.toNat ∧ c.toNat ≤ 1071 then c.toNat + 32
      else if c.toNat = 1030 then 1110
      else c.toNat := by
  have hi : (c = 'І') = (c.toNat = 1030) := by
    rw [charEq_iff_toNat]
    have h : ('І' : Char).toNat = 1030 := by decide
    rw [h]
  rw [pyLower]
  simp only [hi]
  split_ifs with h1 h2 h3
  · exact toNat_ofNat_valid _ (by omega)
  · exact toNat_ofNat_valid _ (by omega)
  · decide
  · rfl

theorem pyUpper_toNat (c : Char) :
    (pyUpper c).toNat =
      if 97 ≤ c.toNat ∧ c.toNat ≤ 122 then c.toNat - 32
      else if 1072 ≤ c.toNat ∧ c.toNat ≤ 1103 then c.toNat - 32
      else if c.toNat = 1110 then 1030
      else c.toNat := by
  have hi : (c = 'і') = (c.toNat = 1110) := by
    rw [charEq_iff_toNat]
    have h : ('і' : Char).toNat = 1110 := by decide
    rw [h]
  rw [pyUpper]
  simp only [hi]
  split_ifs with h1 h2 h3
  · exact toNat_ofNat_valid _ (by omega)
  · exact toNat_ofNat_valid _ (by omega)
  · decide
  · rfl

/-- Corresponding upper and lower case tokens pick out the same message
characters: a character upper-cases to the given Latin capital exactly
when it lower-cases to the matching small letter. -/
theorem case_class (U L : Char) (hU : 65 ≤ U.toNat ∧ U.toNat ≤ 90)
    (hL : L.toNat = U.toNat + 32) (c : Char) :
    (pyUpper c = U) ↔ (pyLower c = L) := by
  rw [charEq_iff_toNat, charEq_iff_toNat, pyUpper_toNat, pyLower_toNat]
  split_ifs <;> omega

/-- The euro sign is fixed by case folding and nothing folds onto it. -/
theorem pyLower_eq_euro (c : Char) : (pyLower c = '€') ↔ (c = '€') := by
  rw [charEq_iff_toNat, charEq_iff_toNat, pyLower_toNat]
  have h : ('€' : Char).toNat = 8364 := by decide
  rw [h]
  split_ifs <;> omega

/-- The dollar sign is fixed by case folding and nothing folds onto it. -/
theorem pyLower_eq_dollar (c : Char) : (pyLower c = '$') ↔ (c = '$') := by
  rw [charEq_iff_toNat, charEq_iff_toNat, pyLower_toNat]
  have h : ('$' : Char).toNat = 36 := by decide
  rw [h]
  split_ifs <;> omega

/-- Token pair relation: position by position, a character maps to the
first token character under f exactly when it maps to the second under
g. -/
def char_classes (f g : Char → Char) : List Char → List Char → Prop :=
  List.Forall₂ (fun u l => ∀ c, f c = u ↔ g c = l)

theorem any_congr {α : Type} {l : List α} {p q : α → Bool}
    (h : ∀ a ∈ l, p a = q a) : l.any p = l.any q := by
  induction l with
  | nil => rfl
  | cons a t ih =>
    simp only [List.any_cons, h a (List.mem_cons_self a t),
      ih (fun b hb => h b (List.mem_cons_of_mem a hb))]

theorem map_eq_of_classes {f g : Char → Char} {tu tl : List Char}
    (h : char_classes f g tu tl) : ∀ b : Str, (b.map f = tu) ↔ (b.map g = tl) := by
  induction h with
  | nil =>
    intro b
    simp only [List.map_eq_nil_iff]
  | cons rel _ ih =>
    intro b
    cases b with
    | nil => simp
    | cons c bs =>
      simp only [List.map_cons, List.cons.injEq]
      exact and_congr (rel c) (ih bs)

theorem strContains_eq_of_classes {f g : Char → Char} {tu tl : List Char}
    (h : char_classes f g tu tl) (s : Str) :
    strContains (s.map f) tu = strContains (s.map g) tl := by
  have hlen : tu.length = tl.length := List.Forall₂.length_eq h
  rw [strContains, strContains, List.length_map, List.length_map]
  refine any_congr (fun i _ => ?_)
  rw [← List.map_drop, ← List.map_take, ← List.map_drop, ← List.map_take, ← hlen]
  exact decide_eq_decide.mpr (map_eq_of_classes h ((s.drop i).take tu.length))

theorem euro_sign_eq (s : Str) :
    strContains s (chars "€") = ci_contains (chars "€") s := by
  have cls : char_classes id pyLower (chars "€") (chars "€") := by
    refine List.Forall₂.cons (fun c => ?_) List.Forall₂.nil
    simpa using (pyLower_eq_euro c).symm
  have h := strContains_eq_of_classes cls s
  rw [List.map_id] at h
  rw [ci_contains]
  have hlow : strLower (chars "€") = chars "€" := by decide
  rw [hlow]
  exact h

theorem dollar_sign_eq (s : Str) :
    strContains s (chars "$") = ci_contains (chars "$") s := by
  have cls : char_classes id pyLower (chars "$") (chars "$") := by
    refine List.Forall₂.cons (fun c => ?_) List.Forall₂.nil
    simpa using (pyLower_eq_dollar c).symm
  have h := strContains_eq_of_classes cls s
  rw [List.map_id] at h
  rw [ci_contains]
  have hlow : strLower (chars "$") = chars "$" := by decide
  rw [hlow]
  exact h

theorem eur_token_eq (s : Str) :
    strContains (strUpper s) (chars "EUR") = ci_contains (chars "EUR") s := by
  have cls : char_classes pyUpper pyLower (chars "EUR") (chars "eur") := by
    refine List.Forall₂.cons (case_class 'E' 'e' (by decide) (by decide)) ?_
    refine List.Forall₂.cons (case_class 'U' 'u' (by decide) (by decide)) ?_
    exact List.Forall₂.cons (case_class 'R' 'r' (by decide) (by decide)) List.Forall₂.nil
  have h := strContains_eq_of_classes cls s
  rw [ci_contains]
  have hlow : strLower (chars "EUR") = chars "eur" := by decide
  rw [hlow]
  exact h

theorem usd_token_eq (s : Str) :
    strContains (strUpper s) (chars "USD") = ci_contains (chars "USD") s := by
  have cls : char_classes pyUpper pyLower (chars "USD") (chars "usd") := by
    refine List.Forall₂.cons (case_class 'U' 'u' (by decide) (by decide)) ?_
    refine List.Forall₂.cons (case_class 'S' 's' (by decide) (by decide)) ?_
    exact List.Forall₂.cons (case_class 'D' 'd' (by decide) (by decide)) List.Forall₂.nil
  have h := strContains_eq_of_classes cls s
  rw [ci_contains]
  have hlow : strLower (chars "USD") = chars "usd" := by decide
  rw [hlow]
  exact h

theorem evro_token_eq (s : Str) :
    strContains (strLower s) (chars "евро") = ci_contains (chars "евро") s := by
  rw [ci_contains]
  have hlow : strLower (chars "евро") = chars "евро" := by decide
  rw [hlow]

theorem dollar_word_eq (s : Str) :
    strContains (strLower s) (chars "dollar") = ci_contains (chars "dollar") s := by
  rw [ci_contains]
  have hlow : strLower (chars "dollar") = chars "dollar" := by decide
  rw [hlow]

theorem dollar_cyr_eq (s : Str) :
    strContains (strLower s) (chars "доллар") = ci_contains (chars "доллар") s := by
  rw [ci_contains]
  have hlow : strLower (chars "доллар") = chars "доллар" := by decide
  rw [hlow]

/-- Claim C9: currency detection scans the euro token group before the
dollar token group, each case-insensitively, returning the symbol of the
first group with a token present in the span and the empty string when
none is; a span holding tokens of both groups therefore yields the euro
symbol. -/
theorem currency_detection_ordered (s : Str) :
    detect_currency s = currency_spec s := by
  rw [detect_currency, euro_sign_eq, eur_token_eq, evro_token_eq,
    dollar_sign_eq, usd_token_eq, dollar_word_eq, dollar_cyr_eq,
    currency_spec, currency_groups]
  cases h1 : ci_contains (chars "€") s <;>
  cases h2 : ci_contains (chars "EUR") s <;>
  cases h3 : ci_contains (chars "евро") s <;>
  cases h4 : ci_contains (chars "$") s <;>
  cases h5 : ci_contains (chars "USD") s <;>
  cases h6 : ci_contains (chars "dollar") s <;>
  cases h7 : ci_contains (chars "доллар") s <;>
  simp [List.find?, List.any_cons, List.any_nil, h1, h2, h3, h4, h5, h6, h7]

/-- Later of two optional indices (absent counts as -1). -/
def maxOpt : Option Nat → Option Nat → Option Nat
  | some i, some j => some (max i j)
  | some i, none => some i
  | none, o => o

/-- Whether a (trimmed) numeric substring starts with an ASCII digit. -/
def firstDigit : Str → Bool
  | [] => false
  | c :: _ => c.isDigit

theorem rfindP_or (p q : Char → Bool) (t : Str) :
    rfindP (fun c => p c || q c) t = maxOpt (rfindP p t) (rfindP q t) := by
  induction t with
  | nil => rfl
  | cons c rest ih =>
    rw [rfindP, rfindP, rfindP, ih]
    cases hp : rfindP p rest with
    | some i =>
      cases hq : rfindP q rest with
      | some j =>
        simp only [maxOpt, Option.some.injEq]
        omega
      | none =>
        cases hqc : q c <;> simp [maxOpt]
    | none =>
      cases hq : rfindP q rest with
      | some j =>
        cases hpc : p c <;> simp [maxOpt]
      | none =>
        cases hpc : p c <;> cases hqc : q c <;> simp [maxOpt, hpc, hqc]

theorem rfindP_sound (p : Char → Bool) (t : Str) (i : Nat)
    (h : rfindP p t = some i) : ∃ hlt : i < t.length, p (t.get ⟨i, hlt⟩) = true := by
  induction t generalizing i with
  | nil => simp [rfindP] at h
  | cons c rest ih =>
    rw [rfindP] at h
    cases hr : rfindP p rest with
    | some j =>
      rw [hr] at h
      cases h
      obtain ⟨hlt, hp⟩ := ih j hr
      exact ⟨by simpa using Nat.succ_lt_succ hlt, hp⟩
    | none =>
      rw [hr] at h
      cases hpc : p c with
      | true =>
        rw [hpc, if_pos rfl] at h
        cases h
        exact ⟨by simp, hpc⟩
      | false => rw [hpc] at h; simp at h

theorem numeric_strip_eq_digit (c : Char) (h : numericChar c = true) :
    (!(c == ',' || c == '.' || c == ' ' || c == '\u00A0')) = c.isDigit := by
  simp only [numericChar, Bool.or_eq_true, beq_iff_eq] at h
  rcases h with ((((h | h) | h) | h) | h)
  · have h1 : ¬(c = ',') := by intro e; subst e; exact absurd h (by decide)
    have h2 : ¬(c = '.') := by intro e; subst e; exact absurd h (by decide)
    have h3 : ¬(c = ' ') := by intro e; subst e; exact absurd h (by decide)
    have h4 : ¬(c = '\u00A0') := by intro e; subst e; exact absurd h (by decide)
    simp [h, beq_iff_eq, h1, h2, h3, h4]
  · subst h; decide
  · subst h; decide
  · subst h; decide
  · subst h; decide

theorem dotSplit_append (a b : Str) (ha : '.' ∉ a) :
    dotSplit (a ++ '.' :: b) = some (a, b) := by
  induction a with
  | nil => simp [dotSplit]
  | cons c rest ih =>
    have hc : ¬(c = '.') := fun e => ha (e ▸ List.mem_cons_self c rest)
    have hrest : '.' ∉ rest := fun hm => ha (List.mem_cons_of_mem c hm)
    rw [List.cons_append, dotSplit, if_neg hc, ih hrest]
    rfl

theorem pyStrip_subset (l : Str) (c : Char) (h : c ∈ pyStrip l) : c ∈ l := by
  rw [pyStrip] at h
  rw [List.mem_reverse] at h
  have h1 := (List.dropWhile_sublist isPySpace).subset h
  rw [List.mem_reverse] at h1
  exact (List.dropWhile_sublist isPySpace).subset h1

theorem strip_seps_eq_filter (t : Str) (h : ∀ c ∈ t, numericChar c = true) :
    strip_seps t = t.filter Char.isDigit :=
  List.filter_congr (fun c hm => numeric_strip_eq_digit c (h c hm))

theorem pyFloat_digits (l : Str) (h1 : l ≠ []) (h2 : l.all Char.isDigit = true) :
    pyFloat l = some ⟨natVal l, 0⟩ := by
  rw [pyFloat, if_pos ⟨h1, h2⟩]

theorem pyFloat_decimal (a b : Str) (haD : a.all Char.isDigit = true) (ha : a ≠ [])
    (hbD : b.all Char.isDigit = true) :
    pyFloat (a ++ '.' :: b) = some ⟨natVal (a ++ b), b.length⟩ := by
  have hdot_a : '.' ∉ a := fun hm =>
    absurd (List.all_eq_true.mp haD '.' hm) (by decide)
  have hdot_b : '.' ∉ b := fun hm =>
    absurd (List.all_eq_true.mp hbD '.' hm) (by decide)
  have hnotall : ¬((a ++ '.' :: b) ≠ [] ∧ (a ++ '.' :: b).all Char.isDigit = true) := by
    rintro ⟨-, hall⟩
    exact absurd (List.all_eq_true.mp hall '.' (by simp)) (by decide)
  rw [pyFloat, if_neg hnotall, dotSplit_append a b hdot_a]
  dsimp only
  rw [if_pos ⟨Or.inl ha, haD, hbD, decide_eq_true hdot_b⟩]

theorem parse_price_rightmost_rule (s : Str)
    (hc : ∀ c ∈ s, numericChar c = true)
    (hd : firstDigit (pyStrip s) = true) :
    parse_price_string s = some (rightmost_sep_rule (pyStrip s)) := by
  have hct : ∀ c ∈ pyStrip s, numericChar c = true :=
    fun c hm => hc c (pyStrip_subset s c hm)
  cases ht0 : pyStrip s with
  | nil => rw [ht0] at hd; exact absurd hd (by decide)
  | cons c0 t0 =>
  rw [ht0] at hd hct
  have hc0 : c0.isDigit = true := hd
  have hint : pyFloat (strip_seps (c0 :: t0)) =
      some ⟨natVal ((c0 :: t0).filter Char.isDigit), 0⟩ := by
    rw [strip_seps_eq_filter _ hct]
    apply pyFloat_digits
    · simp [List.filter_cons, hc0]
    · rw [List.all_eq_true]
      intro c hm
      exact (List.mem_filter.mp hm).2
  have hpos : ∀ (i : Nat) (hlt : i < (c0 :: t0).length),
      ((c0 :: t0).get ⟨i, hlt⟩).isDigit = false → 0 < i := by
    intro i hlt hnd
    cases i with
    | zero =>
      have hz : c0.isDigit = false := hnd
      rw [hz] at hc0
      simp at hc0
    | succ k => exact Nat.succ_pos k
  have hdig_filter_take : ∀ i : Nat, 0 < i →
      ((c0 :: t0).take i).filter Char.isDigit ≠ [] := by
    intro i hi
    cases i with
    | zero => omega
    | succ k =>
      rw [List.take_succ_cons]
      simp [List.filter_cons, hc0]
  have hdec : ∀ i : Nat, 0 < i →
      ((c0 :: t0).drop (i + 1)).all Char.isDigit = true →
      pyFloat (strip_seps ((c0 :: t0).take i) ++ '.' :: (c0 :: t0).drop (i + 1)) =
        some ⟨natVal (((c0 :: t0).take i).filter Char.isDigit ++ (c0 :: t0).drop (i + 1)),
          ((c0 :: t0).drop (i + 1)).length⟩ := by
    intro i hi hall
    have hsub : ∀ c ∈ (c0 :: t0).take i, numericChar c = true :=
      fun c hm => hct c (List.take_subset i (c0 :: t0) hm)
    rw [strip_seps_eq_filter _ hsub]
    refine pyFloat_decimal _ _ ?_ (hdig_filter_take i hi) hall
    rw [List.all_eq_true]
    intro c hm
    exact (List.mem_filter.mp hm).2
  simp only [parse_price_string, rightmost_sep_rule, ht0]
  rw [rfindP_or (fun c => c == '.') (fun c => c == ',') (c0 :: t0)]
  cases hdot : rfindP (fun c => c == '.') (c0 :: t0) with
  | none =>
    cases hcomma : rfindP (fun c => c == ',') (c0 :: t0) with
    | none =>
      simp only [gtOpt, maxOpt, Bool.false_eq_true, if_false]
      exact hint
    | some j =>
      have hlt := rfindP_sound (fun c => c == ',') (c0 :: t0) j hcomma
      obtain ⟨hjlt, hjc⟩ := hlt
      have hj : (c0 :: t0).get ⟨j, hjlt⟩ = ',' := beq_iff_eq.mp hjc
      have hj0 : 0 < j := hpos j hjlt (by rw [hj]; decide)
      simp only [gtOpt, maxOpt, Bool.false_eq_true, if_false, if_true]
      by_cases hsuf : 1 ≤ ((c0 :: t0).drop (j + 1)).length ∧
          ((c0 :: t0).drop (j + 1)).length ≤ 2 ∧
          ((c0 :: t0).drop (j + 1)).all Char.isDigit = true
      · rw [if_pos hsuf, if_pos hsuf]
        dsimp only
        rw [if_pos hj0]
        exact hdec j hj0 hsuf.2.2
      · rw [if_neg hsuf, if_neg hsuf]
        exact hint
  | some i =>
    have hlt := rfindP_sound (fun c => c == '.') (c0 :: t0) i hdot
    obtain ⟨hilt, hic⟩ := hlt
    have hi : (c0 :: t0).get ⟨i, hilt⟩ = '.' := beq_iff_eq.mp hic
    have hi0 : 0 < i := hpos i hilt (by rw [hi]; decide)
    cases hcomma : rfindP (fun c => c == ',') (c0 :: t0) with
    | none =>
      simp only [gtOpt, maxOpt, if_true]
      by_cases hsuf : 1 ≤ ((c0 :: t0).drop (i + 1)).length ∧
          ((c0 :: t0).drop (i + 1)).length ≤ 2 ∧
          ((c0 :: t0).drop (i + 1)).all Char.isDigit = true
      · rw [if_pos hsuf, if_pos hsuf]
        dsimp only
        rw [if_pos hi0]
        exact hdec i hi0 hsuf.2.2
      · rw [if_neg hsuf, if_neg hsuf]
        exact hint
    | some j =>
      have hlt2 := rfindP_sound (fun c => c == ',') (c0 :: t0) j hcomma
      obtain ⟨hjlt, hjc⟩ := hlt2
      have hj : (c0 :: t0).get ⟨j, hjlt⟩ = ',' := beq_iff_eq.mp hjc
      have hj0 : 0 < j := hpos j hjlt (by rw [hj]; decide)
      rcases Nat.lt_trichotomy j i with hij | hij | hij
      · -- dot is later
        have hmax : max i j = i := Nat.max_eq_left (Nat.le_of_lt hij)
        simp only [gtOpt, maxOpt, hmax, decide_eq_true hij, if_true]
        by_cases hsuf : 1 ≤ ((c0 :: t0).drop (i + 1)).length ∧
            ((c0 :: t0).drop (i + 1)).length ≤ 2 ∧
            ((c0 :: t0).drop (i + 1)).all Char.isDigit = true
        · rw [if_pos hsuf, if_pos hsuf]
          dsimp only
          rw [if_pos hi0]
          exact hdec i hi0 hsuf.2.2
        · rw [if_neg hsuf, if_neg hsuf]
          exact hint
      · -- same position: impossible, the character would be both separators
        exfalso
        subst hij
        rw [hj] at hi
        exact absurd hi (by decide)
      · -- comma is later
        have hmax : max i j = j := Nat.max_eq_right (Nat.le_of_lt hij)
        have hnd : ¬(j < i) := Nat.lt_asymm hij
        simp only [gtOpt, maxOpt, hmax, decide_eq_false hnd, Bool.false_eq_true, if_false,
          decide_eq_true hij, if_true]
        by_cases hsuf : 1 ≤ ((c0 :: t0).drop (j + 1)).length ∧
            ((c0 :: t0).drop (j + 1)).length ≤ 2 ∧
            ((c0 :: t0).drop (j + 1)).all Char.isDigit = true
        · rw [if_pos hsuf, if_pos hsuf]
          dsimp only
          rw [if_pos hj0]
          exact hdec j hj0 hsuf.2.2
        · rw [if_neg hsuf, if_neg hsuf]
          exact hint

/-- Claim C2 amended: the rightmost-separator rule holds for every raw
numeric substring whose trimmed form begins with a digit (every capture
of the default price-number pattern does): the later of the last dot and
last comma is the decimal separator iff exactly 1 or 2 digit characters
follow it to the end, and otherwise all separators and whitespace are
stripped and the digit run parses as an integer-valued number.  A
substring whose rightmost separator sits at position 0 of the trimmed
form is the exception the code carves out: the separator is stripped
like a grouping separator.  In particular 1,234.56 and 1.234,56 and
1234,56 all parse to 1234.56 and 1 234 parses to 1234. -/
theorem parse_rightmost_amended :
    (∀ s : Str, (∀ c ∈ s, numericChar c = true) → firstDigit (pyStrip s) = true →
      parse_price_string s = some (rightmost_sep_rule (pyStrip s))) ∧
    parse_price_string (chars "1,234.56") = some ⟨123456, 2⟩ ∧
    parse_price_string (chars "1.234,56") = some ⟨123456, 2⟩ ∧
    parse_price_string (chars "1234,56") = some ⟨123456, 2⟩ ∧
    parse_price_string (chars "1 234") = some ⟨1234, 0⟩ :=
  ⟨fun s hc hd => parse_price_rightmost_rule s hc hd,
   by decide, by decide, by decide, by decide⟩

theorem parse_rightmost_amended_witness :
    (∀ c ∈ chars "1 234,56", numericChar c = true) ∧
    firstDigit (pyStrip (chars "1 234,56")) = true ∧
    parse_price_string (chars "1 234,56") =
      some (rightmost_sep_rule (pyStrip (chars "1 234,56"))) :=
  ⟨by decide, by decide,
   parse_rightmost_amended.1 (chars "1 234,56") (by decide) (by decide)⟩

/-- Claim C2 counterexample: on the raw numeric substring comma-five the
claimed rightmost-separator rule makes the comma a decimal separator
(value one half), but the parser only splits when the separator position
is positive, so it strips the comma and returns five; the results differ
as values (five is not at most one half). -/
theorem parse_rightmost_cex :
    parse_price_string (chars ",5") = some ⟨5, 0⟩ ∧
    rightmost_sep_rule (pyStrip (chars ",5")) = ⟨5, 1⟩ ∧
    PyNum.le ⟨5, 0⟩ ⟨5, 1⟩ = false := by
  refine ⟨?_, ?_, ?_⟩ <;> decide
